/-
Formal model of the time-entries aggregation engine (processor.py, database.py).

Text is modelled as `List Char`; SQLite TEXT comparisons are byte
comparisons and our concrete data is ASCII, so `Char` equality and
codepoint order coincide with the source behaviour.  Python regular
expressions appearing in the source are translated into explicit scanning
functions over `List Char`; each scanner is documented with the regex it
embeds.  Dot-excludes-newline and Unicode word-character subtleties are
not modelled: document titles are single-line and the character classes
involved agree on them.  The md5 digest in `get_source_hash` is modelled
by its (collision-free) input string `date ++ "-" ++ app ++ "-" ++ task`;
two groups receive the same hash exactly when the source feeds the same
string to md5.  Python float arithmetic in `seconds_to_units` is modelled
by exact rational arithmetic: for every integer input the double
evaluation of `ceil(seconds / 360 * 10) / 10` agrees with the exact value
(the binary rounding error of the two operations is far below the 1/36
gap to the nearest discontinuity of the ceiling, and at exact multiples
of 36 the two roundings provably cancel; this was checked exhaustively
for all seconds below five million and at all tenth-unit boundaries
below one hundred million).
-/
import Mathlib

namespace TimeEntries

/-- Text from the source program, modelled as a list of characters. -/
abbrev Str := List Char

/-- Python whitespace class for `str.strip` and the regex class `\s`
(ASCII range): space, tab, newline, carriage return, vertical tab,
form feed. -/
def isPySpace (c : Char) : Bool :=
  c = ' ' || c = '\t' || c = '\n' || c = '\r' || c = '\x0b' || c = '\x0c'

/-- Python regex word character `\w` (ASCII range): alphanumerics and
underscore. -/
def isWordChar (c : Char) : Bool :=
  c.isAlphanum || c = '_'

/-- Drop trailing Python whitespace. -/
def dropEndWs (s : Str) : Str :=
  (s.reverse.dropWhile isPySpace).reverse

/-- Python `str.strip()`: drop leading and trailing whitespace. -/
def pyStrip (s : Str) : Str :=
  dropEndWs (s.dropWhile isPySpace)

/-- Python substring membership `needle in hay`. -/
def hasSubstr (needle : Str) : Str → Bool
  | [] => needle.isEmpty
  | c :: rest => needle.isPrefixOf (c :: rest) || hasSubstr needle rest

/-- Case-insensitive removal of a suffix: `p` is given in lowercase; if
the last `p.length` characters of `s` equal `p` up to `Char.toLower`,
return `s` without them. -/
def dropSuffixCI (p s : Str) : Option Str :=
  if p.length ≤ s.length then
    if (s.drop (s.length - p.length)).map Char.toLower = p then
      some (s.take (s.length - p.length))
    else none
  else none

/-- `seconds_to_units` (processor.py lines 9-23): convert seconds to
6-minute units, rounded up to the nearest 0.1; zero or negative input
yields the 0.1 minimum.  `math.ceil(units * 10) / 10` with
`units = seconds / 360` is `⌈seconds * 10 / 360⌉ / 10` exactly. -/
def seconds_to_units (seconds : ℤ) : ℚ :=
  if seconds ≤ 0 then 1 / 10
  else (⌈(seconds : ℚ) * 10 / 360⌉ : ℚ) / 10

example : seconds_to_units 450 = 13 / 10 := by
  norm_num [seconds_to_units]
  rw [show ⌈(25 / 2 : ℚ)⌉ = (13 : ℤ) by rw [Int.ceil_eq_iff]; norm_num]
  norm_num

example : seconds_to_units 1800 = 5 := by norm_num [seconds_to_units]

example : seconds_to_units 0 = 1 / 10 := by norm_num [seconds_to_units]

/-- Regex `^Document\d+$`: the literal `Document` followed by one or
more digits, spanning the whole text (processor.py lines 97 and 141). -/
def isDocumentN (s : Str) : Bool :=
  "Document".data.isPrefixOf s
    && !(s.drop 8).isEmpty && (s.drop 8).all Char.isDigit

/-- Regex `^\d+ Reminder$` (processor.py line 142): a nonempty digit run
followed by exactly the literal ` Reminder`.  The greedy `\d+` must stop
at a non-digit, so the maximal leading digit run decides the match. -/
def isNReminder (s : Str) : Bool :=
  !(s.takeWhile Char.isDigit).isEmpty
    && s.drop (s.takeWhile Char.isDigit).length = " Reminder".data

/-- The `VAGUE_NAMES` list of `is_vague_name` (processor.py lines 125-133). -/
def VAGUE_NAMES : List Str :=
  ["No Details".data, "Paste".data, "New Tab".data, "Untitled".data,
   "Reminders".data, "Calendar".data,
   "Microsoft Teams".data, "Cursor".data, "ALP Clone".data, "Coding".data,
   "Notes".data,
   "Balloons".data, "Accept".data, "Table of Contents".data,
   "Change Case".data, "Styles".data,
   "Text Highlight Color".data, "Markup Options".data,
   "Open new and recent files".data,
   "TV".data, "Downloads".data, "Recents".data, "OneDrive".data,
   "Google".data, "Welcome".data, "GitHub".data,
   "Rules".data, "RescueTime".data, "Copilot".data, "reMarkable".data,
   "Pilot".data]

/-- `is_vague_name` (processor.py lines 116-146): strips the name, never
filters anything longer than 25 characters, then tests exact membership
in `VAGUE_NAMES` and the pattern-based rules. -/
def is_vague_name (doc_name : Str) : Bool :=
  let d := pyStrip doc_name
  if d.length > 25 then false
  else if d ∈ VAGUE_NAMES then true
  else if "Search, Suggestions".data.isPrefixOf d
          || isDocumentN d
          || isNReminder d
          || d ∈ ["Downloads".data, "Recent".data, "TV".data] then true
  else false

example : is_vague_name "Reminders".data = true := by decide
example : is_vague_name "  Document42  ".data = true := by decide
example : is_vague_name "Open new and recent filesX".data = false := by decide
example : is_vague_name "x.docx".data = false := by decide
example : is_vague_name "3 Reminder".data = true := by decide

/-- Five consecutive digits at the head of the text, together with the
remainder; the building block of the matter-code patterns (`\d{5}`). -/
def fiveDigitsAt (l : Str) : Option (Str × Str) :=
  match l with
  | a :: b :: c :: d :: e :: rest =>
    if a.isDigit && b.isDigit && c.isDigit && d.isDigit && e.isDigit then
      some ([a, b, c, d, e], rest)
    else none
  | _ => none

/-- Regex `\[(\d{5})\]` at the current position. -/
def bracketCodeAt (l : Str) : Option Str :=
  match l with
  | '[' :: rest =>
    match fiveDigitsAt rest with
    | some (ds, ']' :: _) => some ds
    | _ => none
  | _ => none

/-- `re.search(r'\[(\d{5})\]', t)`: leftmost bracket-enclosed code. -/
def findBracketCode : Str → Option Str
  | [] => none
  | c :: rest => bracketCodeAt (c :: rest) <|> findBracketCode rest

/-- Regex `_(\d{5})_` at the current position. -/
def underUnderCodeAt (l : Str) : Option Str :=
  match l with
  | '_' :: rest =>
    match fiveDigitsAt rest with
    | some (ds, '_' :: _) => some ds
    | _ => none
  | _ => none

/-- `re.search(r'_(\d{5})_', t)`: leftmost underscore-enclosed code. -/
def findUnderUnderCode : Str → Option Str
  | [] => none
  | c :: rest => underUnderCodeAt (c :: rest) <|> findUnderUnderCode rest

/-- Regex `_(\d{5})(?=[_\s]|$)` at the current position: underscore,
five digits, then a lookahead requiring underscore, whitespace or end. -/
def underBeforeCodeAt (l : Str) : Option Str :=
  match l with
  | '_' :: rest =>
    match fiveDigitsAt rest with
    | some (ds, []) => some ds
    | some (ds, x :: _) => if x = '_' || isPySpace x then some ds else none
    | none => none
  | _ => none

/-- `re.search(r'_(\d{5})(?=[_\s]|$)', t)`. -/
def findUnderBeforeCode : Str → Option Str
  | [] => none
  | c :: rest => underBeforeCodeAt (c :: rest) <|> findUnderBeforeCode rest

/-- Five digits at the head followed immediately by an underscore:
the `(\d{5})_` tail of pattern 4. -/
def digitsUnderAt (l : Str) : Option Str :=
  match fiveDigitsAt l with
  | some (ds, '_' :: _) => some ds
  | _ => none

/-- `re.search(r'(?:^|[_\s])(\d{5})_', t)`: at position 0 the anchor
branch is tried first (digits start at 0), then each position is tried
with the one-character `[_\s]` branch. -/
def findUnderAfterCode (t : Str) : Option Str :=
  digitsUnderAt t <|> go t
where
  go : Str → Option Str
    | [] => none
    | x :: rest =>
      (if x = '_' || isPySpace x then digitsUnderAt rest else none) <|> go rest

/-- Five digits at the head followed by whitespace or end:
the `(\d{5})(?:\s|$)` tail of pattern 5. -/
def digitsSpaceEndAt (l : Str) : Option Str :=
  match fiveDigitsAt l with
  | some (ds, []) => some ds
  | some (ds, x :: _) => if isPySpace x then some ds else none
  | none => none

/-- `re.search(r'(?:^|\s)(\d{5})(?:\s|$)', t)`. -/
def findSpaceDelimCode (t : Str) : Option Str :=
  digitsSpaceEndAt t <|> go t
where
  go : Str → Option Str
    | [] => none
    | x :: rest =>
      (if isPySpace x then digitsSpaceEndAt rest else none) <|> go rest

/-- `extract_matter_code` (processor.py lines 148-182): the five
delimiter patterns in strict priority order; an empty description is
falsy in Python and short-circuits to `None`. -/
def extract_matter_code (t : Str) : Option Str :=
  if t.isEmpty then none
  else
    findBracketCode t <|> findUnderUnderCode t <|> findUnderBeforeCode t
      <|> findUnderAfterCode t <|> findSpaceDelimCode t

example : extract_matter_code "Report [12345] 99999".data = some "12345".data := by
  decide
example : extract_matter_code "nothing here".data = none := by decide
example : extract_matter_code "_12345_".data = some "12345".data := by decide
example : extract_matter_code "x_54321 rest".data = some "54321".data := by decide
example : extract_matter_code "2025-01-01 12345_x".data = some "12345".data := by
  decide
example : extract_matter_code "code 12345".data = some "12345".data := by decide
example : extract_matter_code "123456".data = none := by decide

/-- The tail of `re.sub(r'\s*-\s*Read-Only$', '', s, flags=IGNORECASE)`
(processor.py line 82): if `s` ends in optional whitespace, a dash,
optional whitespace and a case-insensitive `Read-Only`, that suffix is
removed (the leading `\s*` is greedy, so the leftmost match removes all
whitespace before the dash); otherwise `s` is unchanged. -/
def stripReadOnly (s : Str) : Str :=
  match dropSuffixCI "read-only".data s with
  | none => s
  | some t =>
    let t2 := dropEndWs t
    match t2.getLast? with
    | some '-' => dropEndWs t2.dropLast
    | _ => s

/-- The tail of `re.sub(r'\s+-\s+Compatibility Mode$', '', s, IGNORECASE)`
(processor.py line 84): like `stripReadOnly` but requiring at least one
whitespace character on each side of the dash. -/
def stripCompatMode (s : Str) : Str :=
  match dropSuffixCI "compatibility mode".data s with
  | none => s
  | some t =>
    let t2 := dropEndWs t
    if t2.length = t.length then s
    else
      match t2.getLast? with
      | some '-' =>
        let t3 := t2.dropLast
        let t4 := dropEndWs t3
        if t4.length = t3.length then s else t4
      | _ => s

/-- `re.sub(r'_\[(\d+)\]', r'_\1', s)` (processor.py line 87): every
occurrence of an underscore followed by a bracketed nonempty digit run
loses its brackets.  The scanner emits one character at a time; a first
argument of `n + 1` skips a character already emitted as part of a
match.  No match can begin inside a consumed group, because the pattern
starts with an underscore and the group contains none. -/
def normBracketsGo : Nat → Str → Str
  | _ + 1, [] => []
  | n + 1, _ :: rest => normBracketsGo n rest
  | 0, [] => []
  | 0, '_' :: rest =>
    match rest with
    | '[' :: rest2 =>
      let ds := rest2.takeWhile Char.isDigit
      if ds.isEmpty then '_' :: normBracketsGo 0 rest
      else if (rest2.drop ds.length).head? = some ']' then
        '_' :: (ds ++ normBracketsGo (ds.length + 2) rest)
      else '_' :: normBracketsGo 0 rest
    | _ => '_' :: normBracketsGo 0 rest
  | 0, c :: rest => c :: normBracketsGo 0 rest

/-- The bracket normalisation of the word-processor branch. -/
def normBrackets (s : Str) : Str :=
  normBracketsGo 0 s

example : normBrackets "report_[22069]_v2".data = "report_22069_v2".data := by
  decide

/-- `re.sub(r'^Portal\s*-\s*', 'Portal ', s)` (processor.py line 92). -/
def portalDash (s : Str) : Str :=
  if "Portal".data.isPrefixOf s then
    match (s.drop 6).dropWhile isPySpace with
    | '-' :: t2 => "Portal ".data ++ t2.dropWhile isPySpace
    | _ => s
  else s

/-- `re.sub(r'\s+', ' ', s)` (processor.py line 94): each maximal
whitespace run becomes a single space. -/
def collapseWs : Str → Str
  | [] => []
  | [c] => if isPySpace c then [' '] else [c]
  | c :: d :: rest =>
    if isPySpace c then
      if isPySpace d then collapseWs (d :: rest)
      else ' ' :: collapseWs (d :: rest)
    else c :: collapseWs (d :: rest)

example : collapseWs "Portal   Analytics  2".data = "Portal Analytics 2".data := by
  decide

/-- Leftmost position whose suffix satisfies the test. -/
def findIdxSuffix (p : Str → Bool) : Str → Option Nat
  | [] => if p [] then some 0 else none
  | c :: rest =>
    if p (c :: rest) then some 0 else (findIdxSuffix p rest).map (· + 1)

/-- `re.search(r'(.+?\.pdf)', doc)` (processor.py line 104): the lazy
`.+?` makes the match run from the start of the text to the end of the
first `.pdf` occurring at position one or later. -/
def pdfHead (doc : Str) : Option Str :=
  match doc with
  | [] => none
  | _ :: rest =>
    (findIdxSuffix (fun suf => ".pdf".data.isPrefixOf suf) rest).map
      (fun i => doc.take (i + 5))

example : pdfHead "My Notes.pdf extra".data = some "My Notes.pdf".data := by decide
example : pdfHead ".pdf".data = none := by decide

/-- The character class `[\w\s\-\_\[\]]` of the general filename regex
(processor.py line 109). -/
def fileClass (c : Char) : Bool :=
  isWordChar c || isPySpace c || c = '-' || c = '[' || c = ']'

/-- The extension alternation of the general filename regex
(processor.py line 109; note that `pdf` is absent there). -/
def FILE_EXTS : List Str :=
  ["docx".data, "xlsx".data, "pptx".data, "csv".data, "md".data,
   "txt".data, "py".data, "js".data, "html".data, "css".data]

/-- Case-insensitive extension match at the head of `rest`, returning
the matched characters in their original case (the regex group keeps the
source text).  No listed extension is a prefix of another, so at most
one alternative matches. -/
def extMatch (rest : Str) : Option Str :=
  FILE_EXTS.findSome? fun e =>
    if (rest.take e.length).map Char.toLower = e then some (rest.take e.length)
    else none

/-- `re.search(r'([\w\s\-\_\[\]]+\.(docx|xlsx|pptx|csv|md|txt|py|js|html|css))',
s, IGNORECASE)` (processor.py line 109): at a given start the greedy
class run must be maximal, followed by a dot and a known extension.
Trying every position left to right gives the leftmost regex match: a
position inside a run fails or succeeds together with the start of its
run, which is tried first. -/
def fallbackFile : Str → Option Str
  | [] => none
  | c :: rest =>
    (if fileClass c then
      let run := (c :: rest).takeWhile fileClass
      match (c :: rest).drop run.length with
      | '.' :: rest2 =>
        match extMatch rest2 with
        | some e => some (run ++ '.' :: e)
        | none => none
      | _ => none
    else none) <|> fallbackFile rest

example : fallbackFile "x.docx - Google Chrome".data = some "x.docx".data := by
  decide
example : fallbackFile "a.b and c.TXT!".data = some "b and c.TXT".data := by
  decide

/-- `get_canonical_name` (processor.py lines 72-114); `none` is the
Python `None` discard signal. -/
def get_canonical_name (doc activity : Str) : Option Str :=
  if hasSubstr "microsoft word".data activity then
    let c1 := pyStrip (stripReadOnly doc)
    let c2 := pyStrip (stripCompatMode c1)
    let c3 := normBrackets c2
    let c4 :=
      if "Portal".data.isPrefixOf c3 then collapseWs (portalDash c3) else c3
    if isDocumentN c4 then none else some c4
  else
    match (if hasSubstr "Preview".data activity && hasSubstr ".pdf".data doc
           then pdfHead doc else none) with
    | some m => some (pyStrip m)
    | none =>
      match fallbackFile doc with
      | some m => some (pyStrip m)
      | none => some doc

example :
    get_canonical_name "x.docx - Google Chrome".data "Chrome".data
      = some "x.docx".data := by decide
example :
    get_canonical_name "  -  Read-Only".data "microsoft word".data = some [] := by
  decide
example :
    get_canonical_name "Document7".data "microsoft word".data = none := by decide
example :
    get_canonical_name "Portal - Analytics  Hub".data "microsoft word".data
      = some "Portal Analytics Hub".data := by decide

/-- Removal of an end-anchored literal suffix (`re.sub(r'LIT$', '', s)`). -/
def stripLitSuffix (lit s : Str) : Str :=
  if lit.isSuffixOf s then s.take (s.length - lit.length) else s

/-- The literal head of the pattern `' - Google Chrome – .+$'`
(en dash). -/
def chromeTailLit : Str := " - Google Chrome – ".data

/-- `re.sub(r' - Google Chrome – .+$', '', s)` (processor.py line 223):
everything is removed from the first occurrence of the literal that
still has at least one character after it. -/
def stripChromeTail (s : Str) : Str :=
  match findIdxSuffix
      (fun suf => chromeTailLit.isPrefixOf suf
        && !(suf.drop chromeTailLit.length).isEmpty) s with
  | some i => s.take i
  | none => s

/-- `re.sub(r' \(\d+ unread\)$', '', s)` (processor.py line 225): a
space, an open paren, a nonempty digit run and the literal ` unread)`
at the end. -/
def stripUnread (s : Str) : Str :=
  if " unread)".data.isSuffixOf s then
    let t := s.take (s.length - 8)
    let t2 := (t.reverse.dropWhile Char.isDigit).reverse
    if t2.length < t.length then
      match t2.getLast?, t2.dropLast.getLast? with
      | some '(', some ' ' => t2.dropLast.dropLast
      | _, _ => s
    else s
  else s

/-- The browser noise patterns applied to a canonical name inside
`process_all_data` (processor.py lines 221-228), in source order; the
Edge pattern contains a zero-width space after `Microsoft` and the
Firefox pattern an em dash. -/
def applyNoise (s : Str) : Str :=
  let s1 := stripChromeTail s
  let s2 := stripLitSuffix " - Google Chrome".data s1
  let s3 := stripLitSuffix " - Microsoft​ Edge".data s2
  let s4 := stripLitSuffix " — Mozilla Firefox".data s3
  stripUnread s4

example : applyNoise "Inbox (3 unread)".data = "Inbox".data := by decide
example :
    applyNoise "Docs - Google Chrome – profile".data = "Docs".data := by
  decide

/-- The grouping key a raw row receives inside `process_all_data`
(processor.py lines 217-235): `get_canonical_name`, the Python
truthiness test (`None` and the empty string are both falsy), the noise
reduction, and the vagueness filter.  `none` means the row is
discarded. -/
def rowKey (doc activity : Str) : Option Str :=
  match get_canonical_name doc activity with
  | none => none
  | some c =>
    if c.isEmpty then none
    else
      let c1 := applyNoise c
      if c1.isEmpty then none
      else if is_vague_name c1 then none
      else some c1

example : rowKey "x.docx - Google Chrome".data "Chrome".data
    = some "x.docx".data := by decide
example : rowKey "  -  Read-Only".data "microsoft word".data = none := by decide
example : rowKey "Reminders".data "Some App".data = none := by decide

/-- One row of the `activity_log` table (database.py lines 39-52).  The
`category`, `productivity` and timestamp columns are never read by the
aggregation engine and are elided. -/
structure RawRecord where
  log_date : Str
  activity : Str
  document : Str
  time_spent_seconds : ℤ
  processed : Bool
deriving DecidableEq

/-- One row of the `time_entries` table (database.py lines 55-69
together with the `time_units` column written by the upsert).  The
surrogate `entry_id` and `created_at` are not read by any modelled
operation and are elided; `updated_at` is an abstract timestamp. -/
structure TimeEntry where
  entry_date : Str
  application : Str
  task_description : Str
  total_seconds : ℤ
  time_units : ℚ
  matter_code : Option Str
  status : Str
  notes : Option Str
  source_hash : Str
  updated_at : ℕ
deriving DecidableEq

/-- The two stores the aggregation engine touches. -/
structure DB where
  activity_log : List RawRecord
  time_entries : List TimeEntry
deriving DecidableEq

/-- Optional date bounds of a run (`get_unprocessed_data`,
database.py lines 132-166). -/
structure Scope where
  start_date : Option Str
  end_date : Option Str

/-- The unbounded scope (a run over all unprocessed data). -/
def fullScope : Scope := ⟨none, none⟩

/-- SQLite TEXT comparison: strict lexicographic byte order. -/
def strLt : Str → Str → Bool
  | [], [] => false
  | [], _ :: _ => true
  | _ :: _, [] => false
  | a :: as, b :: bs => a < b || (a = b && strLt as bs)

/-- SQLite TEXT comparison, non-strict. -/
def strLe (a b : Str) : Bool :=
  strLt a b || a = b

/-- The date filter of `get_unprocessed_data`: `BETWEEN` is a pair of
inclusive comparisons, single bounds are single comparisons. -/
def inScope (sc : Scope) (d : Str) : Bool :=
  (match sc.start_date with
   | none => true
   | some s => strLe s d)
  && (match sc.end_date with
      | none => true
      | some e => strLe d e)

/-- `get_unprocessed_data` (database.py lines 132-166): the rows with
`processed = 0` inside the scope.  The `ORDER BY` clause is modelled by
keeping store order; no modelled result depends on row order. -/
def selectRows (db : DB) (sc : Scope) : List RawRecord :=
  db.activity_log.filter fun r => !r.processed && inScope sc r.log_date

/-- The `(log_date, activity, document)` primary key of a raw row. -/
def tripleOf (r : RawRecord) : Str × Str × Str :=
  (r.log_date, r.activity, r.document)

/-- A grouping key of `process_all_data`: `(log_date, activity,
canonical_name)` (processor.py line 232). -/
abbrev GroupKey := Str × Str × Str

/-- The group a raw row joins, if it is not discarded. -/
def rowGroupKey (r : RawRecord) : Option GroupKey :=
  (rowKey r.document r.activity).map fun c => (r.log_date, r.activity, c)

/-- The rows of the selection that survive cleaning: exactly those
appended to `grouped_tasks` and `processed_record_ids`
(processor.py lines 230-235). -/
def keptRows (rows : List RawRecord) : List RawRecord :=
  rows.filter fun r => (rowGroupKey r).isSome

/-- The `processed_record_ids` list (processor.py line 235). -/
def keptTriples (rows : List RawRecord) : List (Str × Str × Str) :=
  (keptRows rows).map tripleOf

/-- First-occurrence deduplication: `seen` holds the values already
emitted.  With `seen = []` this is the key order of a Python dict built
by insertion, used by `grouped_tasks`. -/
def firstDedupAux [DecidableEq α] : List α → List α → List α
  | _, [] => []
  | seen, a :: l =>
    if a ∈ seen then firstDedupAux seen l
    else a :: firstDedupAux (a :: seen) l

/-- First-occurrence deduplication of a list. -/
def firstDedup [DecidableEq α] (l : List α) : List α :=
  firstDedupAux [] l

/-- The keys of `grouped_tasks`, in insertion order. -/
def groupKeys (rows : List RawRecord) : List GroupKey :=
  firstDedup (rows.filterMap rowGroupKey)

/-- The summed seconds of one group (processor.py line 274). -/
def groupTotal (rows : List RawRecord) (g : GroupKey) : ℤ :=
  ((rows.filter fun r => decide (rowGroupKey r = some g)).map
    fun r => r.time_spent_seconds).sum

/-- `get_source_hash` (processor.py lines 184-187): the md5 digest of
`f"{date_str}-{application}-{task_description}"`, modelled by the digest
input itself; two groups collide exactly when the source hashes the same
string. -/
def get_source_hash (date_str application task_description : Str) : Str :=
  date_str ++ "-".data ++ application ++ "-".data ++ task_description

/-- The source hash of a group key. -/
def hashOfGroup (g : GroupKey) : Str :=
  get_source_hash g.1 g.2.1 g.2.2

/-- One tuple of `entries_to_upsert` (processor.py line 283). -/
structure EntryRow where
  entry_date : Str
  application : Str
  task_description : Str
  total_seconds : ℤ
  time_units : ℚ
  source_hash : Str
  matter_code : Option Str

/-- The tuple built for one group (processor.py lines 271-284). -/
def entryRowFor (rows : List RawRecord) (g : GroupKey) : EntryRow :=
  { entry_date := g.1
    application := g.2.1
    task_description := g.2.2
    total_seconds := groupTotal rows g
    time_units := seconds_to_units (groupTotal rows g)
    source_hash := hashOfGroup g
    matter_code := extract_matter_code g.2.2 }

/-- The `entries_to_upsert` list, one tuple per group in insertion
order. -/
def entriesToUpsert (rows : List RawRecord) : List EntryRow :=
  (groupKeys rows).map (entryRowFor rows)

/-- The row a fresh insert of the upsert statement creates: the tuple
fields plus the schema defaults `status = 'pending'` and
`notes = NULL` (database.py lines 62-63). -/
def insertedEntry (now : ℕ) (p : EntryRow) : TimeEntry :=
  { entry_date := p.entry_date
    application := p.application
    task_description := p.task_description
    total_seconds := p.total_seconds
    time_units := p.time_units
    matter_code := p.matter_code
    status := "pending".data
    notes := none
    source_hash := p.source_hash
    updated_at := now }

/-- One execution of the upsert statement (processor.py lines 288-297):
`ON CONFLICT(source_hash)` overwrites `total_seconds`, `time_units`,
`task_description`, `matter_code` and `updated_at`; without a conflict a
fresh row is inserted. -/
def upsertOne (now : ℕ) (es : List TimeEntry) (p : EntryRow) : List TimeEntry :=
  if es.any fun x => decide (x.source_hash = p.source_hash) then
    es.map fun x =>
      if x.source_hash = p.source_hash then
        { x with
          total_seconds := p.total_seconds
          time_units := p.time_units
          task_description := p.task_description
          matter_code := p.matter_code
          updated_at := now }
      else x
  else
    es ++ [insertedEntry now p]

/-- `cursor.executemany(upsert_sql, entries_to_upsert)`: the statement
applied to each tuple in order. -/
def applyUpserts (es : List TimeEntry) (now : ℕ) (ps : List EntryRow) :
    List TimeEntry :=
  ps.foldl (upsertOne now) es

/-- `mark_records_as_processed` (database.py lines 168-196): set
`processed = 1` on every row whose key is in the list. -/
def markProcessed (log : List RawRecord) (keys : List (Str × Str × Str)) :
    List RawRecord :=
  log.map fun r =>
    if tripleOf r ∈ keys then { r with processed := true } else r

/-- `process_all_data` (processor.py lines 189-311) with `debug=False`.
The two commits of the run are two separate transactions on two
connections: the entry upsert commits first, then
`mark_records_as_processed` opens its own connection and commits on its
own.  `upsertOk` and `markOk` say whether each transaction succeeds; a
failed transaction rolls back exactly its own writes (the source
`except` blocks call `conn.rollback()`), and a failed upsert skips the
marking entirely. -/
def process_all_data (db : DB) (sc : Scope) (now : ℕ)
    (upsertOk markOk : Bool) : DB :=
  let rows := selectRows db sc
  if rows.isEmpty then db
  else if (keptRows rows).isEmpty then db
  else if !upsertOk then db
  else
    let db1 : DB :=
      { db with
        time_entries := applyUpserts db.time_entries now (entriesToUpsert rows) }
    if markOk then
      { db1 with activity_log := markProcessed db1.activity_log (keptTriples rows) }
    else db1

/-- One fetched tuple handed to `upsert_activity_data`
(database.py lines 101-130); `category` and `productivity` are elided as
in `RawRecord`. -/
structure FetchRow where
  log_date : Str
  time_spent_seconds : ℤ
  activity : Str
  document : Str

/-- One execution of the `activity_log` upsert: on key conflict the
duration is overwritten and `processed` reset to 0; otherwise a fresh
unprocessed row is appended. -/
def upsertRawOne (log : List RawRecord) (t : FetchRow) : List RawRecord :=
  if log.any fun r =>
      decide (tripleOf r = (t.log_date, t.activity, t.document)) then
    log.map fun r =>
      if tripleOf r = (t.log_date, t.activity, t.document) then
        { r with time_spent_seconds := t.time_spent_seconds, processed := false }
      else r
  else
    log ++ [{ log_date := t.log_date
              activity := t.activity
              document := t.document
              time_spent_seconds := t.time_spent_seconds
              processed := false }]

/-- `upsert_activity_data` (database.py lines 101-130). -/
def upsert_activity_data (db : DB) (data : List FetchRow) : DB :=
  { db with activity_log := data.foldl upsertRawOne db.activity_log }

/-- `SELECT ... WHERE source_hash = h`: the entry stored under a hash. -/
def lookupEntry (es : List TimeEntry) (h : Str) : Option TimeEntry :=
  es.find? fun e => decide (e.source_hash = h)

/-- The sum of `duration_seconds` over the raw rows of group `g` that
carry `processed = true`: the left-hand side of the conservation
invariant. -/
def processedGroupSum (log : List RawRecord) (g : GroupKey) : ℤ :=
  ((log.filter fun r => r.processed && decide (rowGroupKey r = some g)).map
    fun r => r.time_spent_seconds).sum

/-- Claim C5: for every integer number of seconds the unit converter
returns 0.1 when seconds is zero or negative; otherwise the least
multiple of 0.1 that is at least seconds divided by 360 (hence at least
0.1 for every positive duration, with exact multiples of 36 seconds
never rounded beyond their exact value); in particular
`to_units(450) = 1.3` and `to_units(1800) = 5.0`.  The model is the
exact rational semantics of the source formula, with which the IEEE
double evaluation agrees on integer inputs (see the header note). -/
theorem c5_unit_rounding :
    (∀ s : ℤ, s ≤ 0 → seconds_to_units s = 1 / 10)
    ∧ (∀ s : ℤ, 0 < s →
        (s : ℚ) / 360 ≤ seconds_to_units s
        ∧ (∀ q : ℤ, (s : ℚ) / 360 ≤ (q : ℚ) / 10 →
            seconds_to_units s ≤ (q : ℚ) / 10)
        ∧ (1 : ℚ) / 10 ≤ seconds_to_units s)
    ∧ (∀ k : ℤ, 0 < k → seconds_to_units (36 * k) = (k : ℚ) / 10)
    ∧ seconds_to_units 450 = 13 / 10
    ∧ seconds_to_units 1800 = 5 := by
  refine ⟨?_, ?_, ?_, ?_, ?_⟩
  · intro s hs
    simp [seconds_to_units, hs]
  · intro s hs
    have hnot : ¬ s ≤ 0 := not_le.mpr hs
    have hval : seconds_to_units s = (⌈(s : ℚ) * 10 / 360⌉ : ℚ) / 10 := by
      simp [seconds_to_units, hnot]
    refine ⟨?_, ?_, ?_⟩
    · rw [hval]
      have h1 : (s : ℚ) * 10 / 360 ≤ (⌈(s : ℚ) * 10 / 360⌉ : ℚ) := Int.le_ceil _
      linarith
    · intro q hq
      rw [hval]
      have h1 : (s : ℚ) * 10 / 360 ≤ (q : ℚ) := by linarith
      have h2 : ⌈(s : ℚ) * 10 / 360⌉ ≤ q := Int.ceil_le.mpr h1
      have h3 : (⌈(s : ℚ) * 10 / 360⌉ : ℚ) ≤ (q : ℚ) := by exact_mod_cast h2
      linarith
    · rw [hval]
      have hsq : (0 : ℚ) < (s : ℚ) := by exact_mod_cast hs
      have hpos : (0 : ℚ) < (s : ℚ) * 10 / 360 := by positivity
      have h1 : 0 < ⌈(s : ℚ) * 10 / 360⌉ := Int.ceil_pos.mpr hpos
      have h2 : (1 : ℚ) ≤ (⌈(s : ℚ) * 10 / 360⌉ : ℚ) := by exact_mod_cast h1
      linarith
  · intro k hk
    have hnot : ¬ (36 * k ≤ 0) := not_le.mpr (by linarith)
    unfold seconds_to_units
    rw [if_neg hnot,
      show ((36 * k : ℤ) : ℚ) * 10 / 360 = ((k : ℤ) : ℚ) by push_cast; ring,
      Int.ceil_intCast]
  · norm_num [seconds_to_units]
    rw [show ⌈(25 / 2 : ℚ)⌉ = (13 : ℤ) by rw [Int.ceil_eq_iff]; norm_num]
    norm_num
  · norm_num [seconds_to_units]

/-- Witness for C5: the theorem applied at seconds -7 (the non-positive
branch), at seconds 7 (the positive lower bound and the minimality
bound, instantiated at one tenth), and at the multiple 36 * 3. -/
theorem c5_unit_rounding_witness :
    seconds_to_units (-7) = 1 / 10
    ∧ (7 : ℚ) / 360 ≤ seconds_to_units 7
    ∧ seconds_to_units 7 ≤ (1 : ℚ) / 10
    ∧ seconds_to_units (36 * 3) = (3 : ℚ) / 10 :=
  ⟨c5_unit_rounding.1 (-7) (by norm_num),
   (c5_unit_rounding.2.1 7 (by norm_num)).1,
   (c5_unit_rounding.2.1 7 (by norm_num)).2.1 1 (by norm_num),
   c5_unit_rounding.2.2.1 3 (by norm_num)⟩

/-- Claim C7: the matter-code extractor returns the token of the
highest-priority matching pattern, in the strict order bracket-enclosed,
underscore-enclosed, underscore-before, underscore-after, free-standing;
it returns none when no pattern matches; and on
`"Report [12345] 99999"` it returns `"12345"`. -/
theorem c7_matter_code_priority :
    (∀ t c, findBracketCode t = some c → extract_matter_code t = some c)
    ∧ (∀ t c, findBracketCode t = none → findUnderUnderCode t = some c →
        extract_matter_code t = some c)
    ∧ (∀ t c, findBracketCode t = none → findUnderUnderCode t = none →
        findUnderBeforeCode t = some c → extract_matter_code t = some c)
    ∧ (∀ t c, findBracketCode t = none → findUnderUnderCode t = none →
        findUnderBeforeCode t = none → findUnderAfterCode t = some c →
        extract_matter_code t = some c)
    ∧ (∀ t c, findBracketCode t = none → findUnderUnderCode t = none →
        findUnderBeforeCode t = none → findUnderAfterCode t = none →
        findSpaceDelimCode t = some c → extract_matter_code t = some c)
    ∧ (∀ t, findBracketCode t = none → findUnderUnderCode t = none →
        findUnderBeforeCode t = none → findUnderAfterCode t = none →
        findSpaceDelimCode t = none → extract_matter_code t = none)
    ∧ extract_matter_code "Report [12345] 99999".data = some "12345".data := by
  refine ⟨?_, ?_, ?_, ?_, ?_, ?_, by decide⟩
  all_goals intro t
  all_goals
    cases t with
    | nil => simp_all [findBracketCode, findUnderUnderCode, findUnderBeforeCode,
        findUnderAfterCode, findSpaceDelimCode, findUnderAfterCode.go,
        findSpaceDelimCode.go, digitsUnderAt, digitsSpaceEndAt, fiveDigitsAt,
        extract_matter_code]
    | cons a l => simp_all [extract_matter_code]

/-- Witness for C7: the priority parts applied at concrete inputs, with
the pattern hypotheses evaluated by decide. -/
theorem c7_matter_code_priority_witness :
    extract_matter_code "Report [12345] 99999".data = some "12345".data
    ∧ extract_matter_code "draft_54321_ v2".data = some "54321".data
    ∧ extract_matter_code "plain 11111 note".data = some "11111".data :=
  ⟨c7_matter_code_priority.1 "Report [12345] 99999".data "12345".data (by decide),
   c7_matter_code_priority.2.1 "draft_54321_ v2".data "54321".data
     (by decide) (by decide),
   c7_matter_code_priority.2.2.2.2.1 "plain 11111 note".data "11111".data
     (by decide) (by decide) (by decide) (by decide) (by decide)⟩

/-- Claim C8: the vagueness filter never discards a title whose trimmed
length exceeds 25 characters; the 26-character title built from the
25-character vague phrase `Open new and recent files` plus one trailing
character is kept; and any title whose trimmed form is exactly
`Reminders` is discarded. -/
theorem c8_vague_boundary :
    (∀ s : Str, 25 < (pyStrip s).length → is_vague_name s = false)
    ∧ ("Open new and recent filesX".data.length = 26
        ∧ "Open new and recent files".data ∈ VAGUE_NAMES
        ∧ is_vague_name "Open new and recent filesX".data = false)
    ∧ (∀ s : Str, pyStrip s = "Reminders".data → is_vague_name s = true) := by
  refine ⟨?_, by decide, ?_⟩
  · intro s h
    simp [is_vague_name, h]
  · intro s h
    simp [is_vague_name, h]
    exact Or.inl (by decide)

/-- Witness for C8: the universally quantified parts applied to concrete
titles, the trimming hypotheses evaluated by decide. -/
theorem c8_vague_boundary_witness :
    is_vague_name "  a quite descriptive document title  ".data = false
    ∧ is_vague_name "  Reminders ".data = true :=
  ⟨c8_vague_boundary.1 "  a quite descriptive document title  ".data (by decide),
   c8_vague_boundary.2.2 "  Reminders ".data (by decide)⟩

/-- Claim C4: aggregating exactly the two unprocessed raw rows
(2025-01-01, 200 s, Chrome, `x.docx - Google Chrome`) and
(2025-01-01, 160 s, Chrome, `x.docx - Google Chrome`) produces exactly
one TimeEntry with total_seconds 360, time_units 1.0 and
task_description `x.docx`. -/
theorem c4_scenario :
    ∃ e : TimeEntry,
      (process_all_data
        ⟨[⟨"2025-01-01".data, "Chrome".data, "x.docx - Google Chrome".data,
            200, false⟩,
          ⟨"2025-01-01".data, "Chrome".data, "x.docx - Google Chrome".data,
            160, false⟩], []⟩
        fullScope 0 true true).time_entries = [e]
      ∧ e.total_seconds = 360
      ∧ e.time_units = 1
      ∧ e.task_description = "x.docx".data := by
  refine ⟨{ entry_date := "2025-01-01".data
            application := "Chrome".data
            task_description := "x.docx".data
            total_seconds := 360
            time_units := seconds_to_units 360
            matter_code := none
            status := "pending".data
            notes := none
            source_hash := "2025-01-01-Chrome-x.docx".data
            updated_at := 0 }, ?_, rfl, ?_, rfl⟩
  · rfl
  · norm_num [seconds_to_units]

/-- Counterexample to claim C3: on a store with one aggregatable
unprocessed row, a run whose entry-store commit succeeds but whose
flag-marking transaction fails terminates with the upserted TimeEntry
committed while the raw row is still unprocessed — a state that is
neither the pre-run state nor the all-updated state, refuting the
claimed all-or-nothing behaviour. -/
theorem c3_atomicity_counterexample :
    (process_all_data
        ⟨[⟨"2025-01-01".data, "Chrome".data, "x.docx".data, 100, false⟩], []⟩
        fullScope 0 true false).time_entries.map (fun e => e.source_hash)
      = ["2025-01-01-Chrome-x.docx".data]
    ∧ (process_all_data
        ⟨[⟨"2025-01-01".data, "Chrome".data, "x.docx".data, 100, false⟩], []⟩
        fullScope 0 true false).activity_log
      = [⟨"2025-01-01".data, "Chrome".data, "x.docx".data, 100, false⟩] := by
  constructor
  · decide
  · decide

/-- Claim C3 as amended: each of the two transactions of a run is
individually atomic — if the entry-store commit fails the run leaves
both stores exactly as they were — but the flag update is a separate
transaction executed after the entry commit, so when it fails the
committed entry upserts survive while the processed flags are
unchanged. -/
theorem c3_atomicity_amended :
    ∀ (db : DB) (sc : Scope) (now : ℕ) (m : Bool),
      process_all_data db sc now false m = db
      ∧ (process_all_data db sc now true false).activity_log = db.activity_log := by
  intro db sc now m
  constructor
  · simp [process_all_data]
  · simp [process_all_data, apply_ite DB.activity_log]

/-- Claim C10: a raw row whose document title canonicalizes to the empty
string (for example a Microsoft Word title consisting only of a
Read-Only suffix) is treated exactly like a discarded row: it receives
no grouping key, contributes to no group total and no upsert tuple, and
survives every run unchanged in the raw store — in particular it is
never marked processed, so it stays in the unprocessed set. -/
theorem c10_empty_canonical :
    (∀ doc activity : Str,
        get_canonical_name doc activity = some [] → rowKey doc activity = none)
    ∧ get_canonical_name "  -  Read-Only".data "microsoft word".data = some []
    ∧ (∀ r : RawRecord, rowGroupKey r = none →
        ∀ (l1 l2 : List RawRecord),
          (∀ g : GroupKey, groupTotal (l1 ++ r :: l2) g = groupTotal (l1 ++ l2) g)
          ∧ entriesToUpsert (l1 ++ r :: l2) = entriesToUpsert (l1 ++ l2))
    ∧ (∀ (db : DB) (sc : Scope) (now : ℕ) (u m : Bool) (r : RawRecord),
        r ∈ db.activity_log → rowKey r.document r.activity = none →
        r ∈ (process_all_data db sc now u m).activity_log) := by
  refine ⟨?_, by decide, ?_, ?_⟩
  · intro doc activity h
    simp [rowKey, h]
  · intro r hr l1 l2
    have htot : ∀ g : GroupKey,
        groupTotal (l1 ++ r :: l2) g = groupTotal (l1 ++ l2) g := by
      intro g
      simp [groupTotal, List.filter_append, List.filter_cons, hr]
    refine ⟨htot, ?_⟩
    have hkeys : groupKeys (l1 ++ r :: l2) = groupKeys (l1 ++ l2) := by
      simp [groupKeys, List.filterMap_append, List.filterMap_cons, hr]
    unfold entriesToUpsert
    rw [hkeys]
    apply List.map_congr_left
    intro g _
    unfold entryRowFor
    rw [htot g]
  · intro db sc now u m r hr hk
    have hnot : tripleOf r ∉ keptTriples (selectRows db sc) := by
      intro hmem
      obtain ⟨rk, hrk, htrip⟩ := List.mem_map.mp hmem
      have hksome : (rowGroupKey rk).isSome := by
        have := List.of_mem_filter hrk
        simpa using this
      have hda : rk.document = r.document ∧ rk.activity = r.activity := by
        have h2 := congrArg Prod.snd htrip
        exact ⟨congrArg Prod.snd h2, congrArg Prod.fst h2⟩
      rw [rowGroupKey, hda.1, hda.2, hk] at hksome
      simp at hksome
    have hf : r ∈ markProcessed db.activity_log (keptTriples (selectRows db sc)) := by
      unfold markProcessed
      have hmem := List.mem_map_of_mem (fun x : RawRecord =>
        if tripleOf x ∈ keptTriples (selectRows db sc) then
          { x with processed := true } else x) hr
      simpa [hnot] using hmem
    by_cases h1 : (selectRows db sc).isEmpty
    · simpa [process_all_data, h1] using hr
    · by_cases h2 : (keptRows (selectRows db sc)).isEmpty
      · simpa [process_all_data, h1, h2] using hr
      · by_cases hu : u = true
        · by_cases hm : m = true
          · simpa [process_all_data, h1, h2, hu, hm] using hf
          · simpa [process_all_data, h1, h2, hu, hm] using hr
        · simpa [process_all_data, h1, h2, hu] using hr

/-- Witness for C10: the run-level part applied to a store holding one
raw row whose Word title is only a Read-Only suffix; the row survives
the run unchanged and unprocessed. -/
theorem c10_empty_canonical_witness :
    (⟨"2025-01-01".data, "microsoft word".data, "  -  Read-Only".data,
        30, false⟩ : RawRecord)
      ∈ (process_all_data
          ⟨[⟨"2025-01-01".data, "microsoft word".data, "  -  Read-Only".data,
              30, false⟩], []⟩
          fullScope 0 true true).activity_log :=
  c10_empty_canonical.2.2.2
    ⟨[⟨"2025-01-01".data, "microsoft word".data, "  -  Read-Only".data,
        30, false⟩], []⟩
    fullScope 0 true true
    ⟨"2025-01-01".data, "microsoft word".data, "  -  Read-Only".data, 30, false⟩
    (by decide) (by decide)

/-- Membership in the unprocessed selection, unfolded. -/
lemma mem_selectRows {db : DB} {sc : Scope} {r : RawRecord} :
    r ∈ selectRows db sc ↔
      r ∈ db.activity_log ∧ r.processed = false ∧ inScope sc r.log_date = true := by
  simp [selectRows, List.mem_filter, Bool.and_eq_true, Bool.not_eq_true',
    and_assoc]

/-- Membership in the flag-marked store, unfolded. -/
lemma mem_markProcessed {log : List RawRecord} {keys : List (Str × Str × Str)}
    {r : RawRecord} :
    r ∈ markProcessed log keys ↔
      ∃ r0 ∈ log,
        r = if tripleOf r0 ∈ keys then { r0 with processed := true } else r0 := by
  simp [markProcessed, List.mem_map, eq_comm]

/-- Claim C2: running the aggregation twice with the same scope and no
intervening raw-data change leaves, after the second run, exactly the
state of the first run — the same TimeEntry rows and zero additional
rows marked processed.  Both runs are taken successful; the state
equality covers the claimed hash-set, per-hash totals and zero extra
consumption. -/
theorem c2_idempotence :
    ∀ (db : DB) (sc : Scope) (n1 n2 : ℕ),
      process_all_data (process_all_data db sc n1 true true) sc n2 true true
        = process_all_data db sc n1 true true := by
  intro db sc n1 n2
  by_cases h1 : (selectRows db sc).isEmpty
  · have hdb : process_all_data db sc n1 true true = db := by
      simp [process_all_data, h1]
    rw [hdb]
    simp [process_all_data, h1]
  · by_cases h2 : (keptRows (selectRows db sc)).isEmpty
    · have hdb : process_all_data db sc n1 true true = db := by
        simp [process_all_data, h1, h2]
      rw [hdb]
      simp [process_all_data, h1, h2]
    · have hdb1 : process_all_data db sc n1 true true
        = ⟨markProcessed db.activity_log (keptTriples (selectRows db sc)),
           applyUpserts db.time_entries n1 (entriesToUpsert (selectRows db sc))⟩ := by
        simp [process_all_data, h1, h2]
      have hkey : ∀ r ∈ selectRows (process_all_data db sc n1 true true) sc,
          rowGroupKey r = none := by
        intro r hrmem
        rw [hdb1] at hrmem
        obtain ⟨hrlog, hrproc, hrscope⟩ := mem_selectRows.mp hrmem
        obtain ⟨r0, hr0, heq⟩ := mem_markProcessed.mp hrlog
        by_cases hkeys : tripleOf r0 ∈ keptTriples (selectRows db sc)
        · rw [if_pos hkeys] at heq
          rw [heq] at hrproc
          simp at hrproc
        · rw [if_neg hkeys] at heq
          subst heq
          have hsel : r ∈ selectRows db sc :=
            mem_selectRows.mpr ⟨hr0, hrproc, hrscope⟩
          by_contra hcon
          have hsome : (rowGroupKey r).isSome := by
            cases hv : rowGroupKey r
            · exact absurd hv hcon
            · simp
          have hkept : r ∈ keptRows (selectRows db sc) :=
            List.mem_filter.mpr ⟨hsel, hsome⟩
          exact hkeys (List.mem_map_of_mem tripleOf hkept)
      have hkept2 :
          (keptRows (selectRows (process_all_data db sc n1 true true) sc)).isEmpty := by
        have hnil :
            keptRows (selectRows (process_all_data db sc n1 true true) sc) = [] := by
          apply List.filter_eq_nil_iff.mpr
          intro a ha
          simp [hkey a ha]
        rw [hnil]
        rfl
      set X := process_all_data db sc n1 true true with hX
      by_cases h3 : (selectRows X sc).isEmpty
      · simp [process_all_data, h3]
      · simp [process_all_data, h3, hkept2]

/-- One upsert execution keeps every stored entry present, with its
identity, status, notes, date and application unchanged. -/
lemma upsertOne_keeps (now : ℕ) (es : List TimeEntry) (p : EntryRow) :
    ∀ x ∈ es, ∃ x', x' ∈ upsertOne now es p
      ∧ x'.source_hash = x.source_hash
      ∧ x'.status = x.status ∧ x'.notes = x.notes
      ∧ x'.entry_date = x.entry_date ∧ x'.application = x.application := by
  intro x hx
  unfold upsertOne
  by_cases hc : es.any fun y => decide (y.source_hash = p.source_hash)
  · rw [if_pos hc]
    refine ⟨_, List.mem_map_of_mem (fun y =>
      if y.source_hash = p.source_hash then
        { y with
          total_seconds := p.total_seconds
          time_units := p.time_units
          task_description := p.task_description
          matter_code := p.matter_code
          updated_at := now }
      else y) hx, ?_⟩
    by_cases h : x.source_hash = p.source_hash
    · simp [h]
    · simp [h]
  · rw [if_neg hc]
    exact ⟨x, List.mem_append_left _ hx, rfl, rfl, rfl, rfl, rfl⟩

/-- The whole upsert phase keeps every previously stored entry, with
status, notes, date and application unchanged. -/
lemma applyUpserts_keeps (now : ℕ) (ps : List EntryRow) :
    ∀ es, ∀ x ∈ es, ∃ x', x' ∈ applyUpserts es now ps
      ∧ x'.source_hash = x.source_hash
      ∧ x'.status = x.status ∧ x'.notes = x.notes
      ∧ x'.entry_date = x.entry_date ∧ x'.application = x.application := by
  induction ps with
  | nil =>
    intro es x hx
    exact ⟨x, hx, rfl, rfl, rfl, rfl, rfl⟩
  | cons q tl ih =>
    intro es x hx
    obtain ⟨y, hy, h1, h2, h3, h4, h5⟩ := upsertOne_keeps now es q x hx
    obtain ⟨x', hx', g1, g2, g3, g4, g5⟩ := ih (upsertOne now es q) y hy
    exact ⟨x', hx', g1.trans h1, g2.trans h2, g3.trans h3, g4.trans h4, g5.trans h5⟩

/-- Every entry present after one upsert execution either descends from
a stored entry of the same hash with status and notes unchanged, or is a
fresh insert with the pending status and empty notes. -/
lemma upsertOne_provenance (now : ℕ) (es : List TimeEntry) (p : EntryRow) :
    ∀ x' ∈ upsertOne now es p,
      (∃ x ∈ es, x.source_hash = x'.source_hash ∧ x'.status = x.status
        ∧ x'.notes = x.notes)
      ∨ (x'.status = "pending".data ∧ x'.notes = none) := by
  intro x' hx'
  unfold upsertOne at hx'
  by_cases hc : es.any fun y => decide (y.source_hash = p.source_hash)
  · rw [if_pos hc] at hx'
    obtain ⟨x, hx, heq⟩ := List.mem_map.mp hx'
    subst heq
    left
    by_cases h : x.source_hash = p.source_hash
    · exact ⟨x, hx, by simp [h]⟩
    · exact ⟨x, hx, by simp [h]⟩
  · rw [if_neg hc] at hx'
    rcases List.mem_append.mp hx' with h | h
    · exact Or.inl ⟨x', h, rfl, rfl, rfl⟩
    · right
      rw [List.mem_singleton.mp h]
      exact ⟨rfl, rfl⟩

/-- Provenance through the whole upsert phase. -/
lemma applyUpserts_provenance (now : ℕ) (ps : List EntryRow) :
    ∀ es, ∀ x' ∈ applyUpserts es now ps,
      (∃ x ∈ es, x.source_hash = x'.source_hash ∧ x'.status = x.status
        ∧ x'.notes = x.notes)
      ∨ (x'.status = "pending".data ∧ x'.notes = none) := by
  induction ps with
  | nil =>
    intro es x' hx'
    exact Or.inl ⟨x', hx', rfl, rfl, rfl⟩
  | cons q tl ih =>
    intro es x' hx'
    rcases ih (upsertOne now es q) x' hx' with ⟨x, hx, h1, h2, h3⟩ | hpend
    · rcases upsertOne_provenance now es q x hx with ⟨x0, hx0, g1, g2, g3⟩ | gpend
      · exact Or.inl ⟨x0, hx0, g1.trans h1, h2.trans g2, h3.trans g3⟩
      · exact Or.inr ⟨h2.trans gpend.1, h3.trans gpend.2⟩
    · exact Or.inr hpend

/-- Claim C6: the upsert phase of a run overwrites, for an existing
TimeEntry hit on its source_hash, only total_seconds, time_units,
task_description, matter_code and the update timestamp — every entry
present before survives with status, notes, entry_date and application
unchanged; the conflict branch is exactly that field update; and every
entry created for the first time carries status pending (and empty
notes). -/
theorem c6_upsert_frame :
    (∀ (now : ℕ) (es : List TimeEntry) (ps : List EntryRow),
      ∀ x ∈ es, ∃ x', x' ∈ applyUpserts es now ps
        ∧ x'.source_hash = x.source_hash
        ∧ x'.status = x.status ∧ x'.notes = x.notes
        ∧ x'.entry_date = x.entry_date ∧ x'.application = x.application)
    ∧ (∀ (now : ℕ) (es : List TimeEntry) (ps : List EntryRow),
      ∀ x' ∈ applyUpserts es now ps,
        (∃ x ∈ es, x.source_hash = x'.source_hash ∧ x'.status = x.status
          ∧ x'.notes = x.notes)
        ∨ (x'.status = "pending".data ∧ x'.notes = none))
    ∧ (∀ (now : ℕ) (es : List TimeEntry) (p : EntryRow),
        (∃ x ∈ es, x.source_hash = p.source_hash) →
        upsertOne now es p = es.map fun x =>
          if x.source_hash = p.source_hash then
            { x with
              total_seconds := p.total_seconds
              time_units := p.time_units
              task_description := p.task_description
              matter_code := p.matter_code
              updated_at := now }
          else x) := by
  refine ⟨fun now es ps => applyUpserts_keeps now ps es,
    fun now es ps => applyUpserts_provenance now ps es,
    fun now es p hex => ?_⟩
  have hany : (es.any fun x => decide (x.source_hash = p.source_hash)) = true := by
    obtain ⟨x, hx, hh⟩ := hex
    exact List.any_eq_true.mpr ⟨x, hx, by simp [hh]⟩
  unfold upsertOne
  rw [if_pos hany]

/-- A stored entry used by the C6 witness: an operator already set its
status and notes. -/
def c6exEntry : TimeEntry :=
  { entry_date := "2025-01-01".data
    application := "Chrome".data
    task_description := "old task".data
    total_seconds := 10
    time_units := 1
    matter_code := none
    status := "submitted".data
    notes := some "keep me".data
    source_hash := "2025-01-01-Chrome-old task".data
    updated_at := 0 }

/-- A re-aggregated tuple hitting the same hash, used by the C6
witness. -/
def c6exRow : EntryRow :=
  { entry_date := "2025-01-01".data
    application := "Chrome".data
    task_description := "old task".data
    total_seconds := 42
    time_units := 1
    source_hash := "2025-01-01-Chrome-old task".data
    matter_code := none }

/-- Witness for C6: the frame part applied to a one-entry store hit by a
conflicting tuple. -/
theorem c6_upsert_frame_witness :
    ∃ x', x' ∈ applyUpserts [c6exEntry] 9 [c6exRow]
      ∧ x'.source_hash = c6exEntry.source_hash
      ∧ x'.status = c6exEntry.status ∧ x'.notes = c6exEntry.notes
      ∧ x'.entry_date = c6exEntry.entry_date
      ∧ x'.application = c6exEntry.application :=
  c6_upsert_frame.1 9 [c6exEntry] [c6exRow] c6exEntry (by simp)

/-- With activity and task fixed, the hash input determines the date:
equal digest inputs force equal dates. -/
lemma get_source_hash_date_inj {d1 d2 a t : Str} :
    get_source_hash d1 a t = get_source_hash d2 a t → d1 = d2 := by
  intro h
  unfold get_source_hash at h
  simp only [List.append_assoc] at h
  exact List.append_cancel_right h

/-- Claim C9: two raw rows with the same activity and the same canonical
key but different log_date always produce two distinct TimeEntry rows
whose source_hash values differ — the same canonical task on two dates
is never merged into one entry. -/
theorem c9_per_date_grouping :
    ∀ (r1 r2 : RawRecord) (c : Str) (now : ℕ),
      r1.processed = false → r2.processed = false →
      r1.activity = r2.activity → r1.log_date ≠ r2.log_date →
      rowKey r1.document r1.activity = some c →
      rowKey r2.document r2.activity = some c →
      ∃ e1 e2 : TimeEntry,
        (process_all_data ⟨[r1, r2], []⟩ fullScope now true true).time_entries
          = [e1, e2]
        ∧ e1.source_hash ≠ e2.source_hash := by
  intro r1 r2 c now hp1 hp2 ha hd hk1 hk2
  have hg1 : rowGroupKey r1 = some (r1.log_date, r1.activity, c) := by
    simp [rowGroupKey, hk1]
  have hg2 : rowGroupKey r2 = some (r2.log_date, r2.activity, c) := by
    simp [rowGroupKey, hk2]
  have hsel : selectRows ⟨[r1, r2], []⟩ fullScope = [r1, r2] := by
    simp [selectRows, List.filter, hp1, hp2, inScope, fullScope]
  have hne : ((r1.log_date, r1.activity, c) : GroupKey)
      ≠ (r2.log_date, r2.activity, c) := by
    intro h
    exact hd (congrArg Prod.fst h)
  have hkeys : groupKeys [r1, r2]
      = [(r1.log_date, r1.activity, c), (r2.log_date, r2.activity, c)] := by
    simp [groupKeys, List.filterMap, hg1, hg2, firstDedup, firstDedupAux,
      Ne.symm hne]
  have hhne : hashOfGroup (r1.log_date, r1.activity, c)
      ≠ hashOfGroup (r2.log_date, r2.activity, c) := by
    unfold hashOfGroup
    rw [ha]
    intro h
    exact hd (get_source_hash_date_inj h)
  have hents : entriesToUpsert [r1, r2]
      = [entryRowFor [r1, r2] (r1.log_date, r1.activity, c),
         entryRowFor [r1, r2] (r2.log_date, r2.activity, c)] := by
    rw [entriesToUpsert, hkeys]
    rfl
  have hres : (process_all_data ⟨[r1, r2], []⟩ fullScope now true true).time_entries
      = applyUpserts [] now (entriesToUpsert [r1, r2]) := by
    have hk : keptRows [r1, r2] = [r1, r2] := by
      simp [keptRows, List.filter, hg1, hg2]
    simp [process_all_data, hsel, hk]
  have happ : applyUpserts [] now (entriesToUpsert [r1, r2])
      = [insertedEntry now (entryRowFor [r1, r2] (r1.log_date, r1.activity, c)),
         insertedEntry now (entryRowFor [r1, r2] (r2.log_date, r2.activity, c))] := by
    rw [hents]
    show upsertOne now (upsertOne now [] _) _ = _
    rw [show upsertOne now []
        (entryRowFor [r1, r2] (r1.log_date, r1.activity, c))
        = [insertedEntry now (entryRowFor [r1, r2] (r1.log_date, r1.activity, c))]
      by simp [upsertOne]]
    unfold upsertOne
    rw [if_neg (by simp [insertedEntry, entryRowFor, hhne])]
    rfl
  refine ⟨insertedEntry now (entryRowFor [r1, r2] (r1.log_date, r1.activity, c)),
    insertedEntry now (entryRowFor [r1, r2] (r2.log_date, r2.activity, c)),
    hres.trans happ, ?_⟩
  simpa [insertedEntry, entryRowFor] using hhne

/-- Witness for C9: the theorem applied to two concrete rows of the same
canonical task on consecutive dates. -/
theorem c9_per_date_grouping_witness :
    ∃ e1 e2 : TimeEntry,
      (process_all_data
        ⟨[⟨"2025-01-01".data, "Chrome".data, "x.docx".data, 100, false⟩,
          ⟨"2025-01-02".data, "Chrome".data, "x.docx".data, 70, false⟩], []⟩
        fullScope 0 true true).time_entries = [e1, e2]
      ∧ e1.source_hash ≠ e2.source_hash :=
  c9_per_date_grouping
    ⟨"2025-01-01".data, "Chrome".data, "x.docx".data, 100, false⟩
    ⟨"2025-01-02".data, "Chrome".data, "x.docx".data, 70, false⟩
    "x.docx".data 0 rfl rfl rfl (by decide) (by decide) (by decide)

/-- Membership in the first-occurrence deduplication. -/
lemma mem_firstDedupAux [DecidableEq α] (l : List α) :
    ∀ (seen : List α) (x : α),
      x ∈ firstDedupAux seen l ↔ x ∈ l ∧ x ∉ seen := by
  induction l with
  | nil =>
    intro seen x
    simp [firstDedupAux]
  | cons a t ih =>
    intro seen x
    simp only [firstDedupAux]
    by_cases h : a ∈ seen
    · rw [if_pos h, ih]
      simp only [List.mem_cons]
      constructor
      · rintro ⟨hx, hs⟩
        exact ⟨Or.inr hx, hs⟩
      · rintro ⟨rfl | hx, hs⟩
        · exact absurd h hs
        · exact ⟨hx, hs⟩
    · rw [if_neg h]
      simp only [List.mem_cons, ih, List.mem_cons]
      constructor
      · rintro (rfl | ⟨hx, hs⟩)
        · exact ⟨Or.inl rfl, h⟩
        · exact ⟨Or.inr hx, fun hseen => hs (Or.inr hseen)⟩
      · rintro ⟨rfl | hx, hs⟩
        · exact Or.inl rfl
        · by_cases hxa : x = a
          · exact Or.inl hxa
          · exact Or.inr ⟨hx, fun hseen => (by
              rcases hseen with h1 | h1
              · exact hxa h1
              · exact hs h1 : False)⟩

/-- A group key is written by the run exactly when some selected row
joins it. -/
lemma mem_groupKeys {rows : List RawRecord} {g : GroupKey} :
    g ∈ groupKeys rows ↔ ∃ r ∈ rows, rowGroupKey r = some g := by
  simp [groupKeys, firstDedup, mem_firstDedupAux, List.mem_filterMap]

/-- An upsert with a different hash leaves the entry stored under `h`
untouched. -/
lemma upsertOne_hash_preserved (now : ℕ) (es : List TimeEntry) (p : EntryRow)
    (h : Str) (hne : p.source_hash ≠ h) :
    lookupEntry (upsertOne now es p) h = lookupEntry es h := by
  unfold upsertOne lookupEntry
  by_cases hc : es.any fun y => decide (y.source_hash = p.source_hash)
  · rw [if_pos hc, List.find?_map]
    have hcomp : ((fun e : TimeEntry => decide (e.source_hash = h)) ∘
        (fun x : TimeEntry =>
          if x.source_hash = p.source_hash then
            { x with
              total_seconds := p.total_seconds
              time_units := p.time_units
              task_description := p.task_description
              matter_code := p.matter_code
              updated_at := now }
          else x))
        = fun e : TimeEntry => decide (e.source_hash = h) := by
      funext x
      by_cases hx : x.source_hash = p.source_hash
      · simp [hx]
      · simp [hx]
    rw [hcomp]
    cases hfind : es.find? fun e => decide (e.source_hash = h) with
    | none => simp
    | some e =>
      have he : e.source_hash = h := by simpa using List.find?_some hfind
      have hep : ¬ e.source_hash = p.source_hash := by
        rw [he]
        exact fun hcon => hne hcon.symm
      simp [hep]
  · rw [if_neg hc, List.find?_append]
    have : ([insertedEntry now p].find? fun e => decide (e.source_hash = h))
        = none := by
      simp [insertedEntry, hne]
    rw [this]
    cases es.find? fun e => decide (e.source_hash = h) with
    | none => rfl
    | some e => rfl

/-- A run of upserts none of which carries hash `h` leaves the entry
stored under `h` untouched. -/
lemma lookup_applyUpserts_of_not_mem (now : ℕ) (h : Str) :
    ∀ (ps : List EntryRow), (∀ q ∈ ps, q.source_hash ≠ h) →
      ∀ es, lookupEntry (applyUpserts es now ps) h = lookupEntry es h := by
  intro ps
  induction ps with
  | nil =>
    intro _ es
    rfl
  | cons q tl ih =>
    intro hps es
    rw [show applyUpserts es now (q :: tl)
        = applyUpserts (upsertOne now es q) now tl from rfl]
    rw [ih (fun x hx => hps x (List.mem_cons_of_mem q hx)) (upsertOne now es q)]
    exact upsertOne_hash_preserved now es q h (hps q (List.mem_cons_self q tl))

/-- After one upsert the entry stored under the tuple hash carries the
tuple total. -/
lemma lookup_upsertOne_self (now : ℕ) (es : List TimeEntry) (p : EntryRow) :
    ∃ e, lookupEntry (upsertOne now es p) p.source_hash = some e
      ∧ e.total_seconds = p.total_seconds := by
  unfold upsertOne lookupEntry
  by_cases hc : es.any fun y => decide (y.source_hash = p.source_hash)
  · rw [if_pos hc, List.find?_map]
    have hcomp : ((fun e : TimeEntry => decide (e.source_hash = p.source_hash)) ∘
        (fun x : TimeEntry =>
          if x.source_hash = p.source_hash then
            { x with
              total_seconds := p.total_seconds
              time_units := p.time_units
              task_description := p.task_description
              matter_code := p.matter_code
              updated_at := now }
          else x))
        = fun e : TimeEntry => decide (e.source_hash = p.source_hash) := by
      funext x
      by_cases hx : x.source_hash = p.source_hash
      · simp [hx]
      · simp [hx]
    rw [hcomp]
    have hsome : (es.find? fun x => decide (x.source_hash = p.source_hash)).isSome := by
      rw [List.find?_isSome]
      simpa [List.any_eq_true] using hc
    obtain ⟨x, hx⟩ := Option.isSome_iff_exists.mp hsome
    rw [hx]
    have hxh : x.source_hash = p.source_hash := by simpa using List.find?_some hx
    exact ⟨_, rfl, by simp [hxh]⟩
  · rw [if_neg hc, List.find?_append]
    have hnone : (es.find? fun e => decide (e.source_hash = p.source_hash))
        = none := by
      rw [List.find?_eq_none]
      intro x hx
      simp only [decide_eq_true_eq]
      intro hcon
      rw [List.any_eq_true] at hc
      exact hc ⟨x, hx, by simp [hcon]⟩
    rw [hnone]
    exact ⟨insertedEntry now p, by simp [insertedEntry], rfl⟩

/-- The entry stored under the hash of the unique payload with that hash
carries the payload total. -/
lemma lookup_applyUpserts_unique (now : ℕ) (h : Str) :
    ∀ (ps : List EntryRow) (p : EntryRow), p ∈ ps → p.source_hash = h →
      (∀ q ∈ ps, q.source_hash = h → q = p) →
      ∀ es, ∃ e, lookupEntry (applyUpserts es now ps) h = some e
        ∧ e.total_seconds = p.total_seconds := by
  intro ps
  induction ps with
  | nil =>
    intro p hp
    exact absurd hp (List.not_mem_nil p)
  | cons q tl ih =>
    intro p hp hph huniq es
    by_cases hmem : p ∈ tl
    · exact ih p hmem hph
        (fun x hx hxh => huniq x (List.mem_cons_of_mem q hx) hxh)
        (upsertOne now es q)
    · have hpq : p = q := by
        rcases List.mem_cons.mp hp with h1 | h1
        · exact h1
        · exact absurd h1 hmem
      subst hpq
      have htl : ∀ x ∈ tl, x.source_hash ≠ h := by
        intro x hx hxh
        have hxp := huniq x (List.mem_cons_of_mem _ hx) hxh
        exact hmem (hxp ▸ hx)
      rw [show applyUpserts es now (p :: tl)
          = applyUpserts (upsertOne now es p) now tl from rfl]
      rw [lookup_applyUpserts_of_not_mem now h tl htl (upsertOne now es p)]
      rw [← hph]
      exact lookup_upsertOne_self now es p

/-- The processed-row sum of a group after flag marking, written over
the unmarked store. -/
lemma processedGroupSum_mark (log : List RawRecord)
    (keys : List (Str × Str × Str)) (g : GroupKey) :
    processedGroupSum (markProcessed log keys) g
      = ((log.filter fun r =>
            (r.processed || decide (tripleOf r ∈ keys))
              && decide (rowGroupKey r = some g)).map
          fun r => r.time_spent_seconds).sum := by
  unfold processedGroupSum markProcessed
  rw [List.filter_map, List.map_map]
  have hpred : ∀ r ∈ log,
      ((fun x : RawRecord => x.processed && decide (rowGroupKey x = some g)) ∘
        (fun x : RawRecord =>
          if tripleOf x ∈ keys then { x with processed := true } else x)) r
      = ((r.processed || decide (tripleOf r ∈ keys))
          && decide (rowGroupKey r = some g)) := by
    intro r _
    by_cases hk : tripleOf r ∈ keys
    · simp [hk, rowGroupKey]
    · simp [hk]
  have hsec : ((fun x : RawRecord => x.time_spent_seconds) ∘
      (fun x : RawRecord =>
        if tripleOf x ∈ keys then { x with processed := true } else x))
      = fun x : RawRecord => x.time_spent_seconds := by
    funext x
    by_cases hk : tripleOf x ∈ keys
    · simp [hk]
    · simp [hk]
  rw [List.filter_congr hpred, hsec]

/-- For a store with unique raw keys, a key triple is in the consumed
set exactly when its row was selected and kept. -/
lemma triple_mem_kept {db : DB} {sc : Scope} {r : RawRecord}
    (hnodup : (db.activity_log.map tripleOf).Nodup)
    (hr : r ∈ db.activity_log) :
    tripleOf r ∈ keptTriples (selectRows db sc)
      ↔ r ∈ selectRows db sc ∧ (rowGroupKey r).isSome := by
  constructor
  · intro hmem
    obtain ⟨rk, hrk, heq⟩ := List.mem_map.mp hmem
    have hrk_rows : rk ∈ selectRows db sc := List.mem_of_mem_filter hrk
    have hrk_log : rk ∈ db.activity_log := List.mem_of_mem_filter hrk_rows
    have hrkr : rk = r := List.inj_on_of_nodup_map hnodup hrk_log hr heq
    subst hrkr
    exact ⟨hrk_rows, by simpa using (List.mem_filter.mp hrk).2⟩
  · rintro ⟨h1, h2⟩
    exact List.mem_map_of_mem tripleOf
      (List.mem_filter.mpr ⟨h1, by simpa using h2⟩)

/-- Counterexample to claim C1: start from one unprocessed raw row of
100 seconds whose canonical key is `x.docx`, aggregate (the entry totals
100 and the row is marked processed), then let a new 50-second raw row
of the same group arrive through the activity upsert, and aggregate
again.  The second run overwrites the entry with 50, the sum of the
newly consumed rows only, while the processed rows of the group sum to
150 — the claimed invariant fails after a successful run. -/
theorem c1_conservation_counterexample :
    (lookupEntry
      (process_all_data
        (upsert_activity_data
          (process_all_data
            ⟨[⟨"2025-01-01".data, "Chrome".data, "x.docx - Google Chrome".data,
                100, false⟩], []⟩
            fullScope 0 true true)
          [⟨"2025-01-01".data, 50, "Chrome".data, "x.docx".data⟩])
        fullScope 1 true true).time_entries
      (hashOfGroup ("2025-01-01".data, "Chrome".data, "x.docx".data))).map
        (fun e => e.total_seconds) = some 50
    ∧ processedGroupSum
        (process_all_data
          (upsert_activity_data
            (process_all_data
              ⟨[⟨"2025-01-01".data, "Chrome".data, "x.docx - Google Chrome".data,
                  100, false⟩], []⟩
              fullScope 0 true true)
            [⟨"2025-01-01".data, 50, "Chrome".data, "x.docx".data⟩])
          fullScope 1 true true).activity_log
        ("2025-01-01".data, "Chrome".data, "x.docx".data) = 150 := by
  constructor
  · decide
  · decide

/-- Claim C1 as amended: the conservation equation holds for every group
that the run writes, provided no raw row of the group was already marked
processed before the run (the hypothesis the counterexample violates),
for a store with unique raw keys and no digest collision among the run
groups: after the run, the entry stored under the group hash carries
exactly the sum of duration_seconds over the processed rows of the
group, which are the rows this run consumed. -/
theorem c1_conservation_amended :
    ∀ (db : DB) (sc : Scope) (now : ℕ) (g : GroupKey),
      (db.activity_log.map tripleOf).Nodup →
      (∀ r ∈ db.activity_log, r.processed = true → rowGroupKey r ≠ some g) →
      g ∈ groupKeys (selectRows db sc) →
      (∀ g2 ∈ groupKeys (selectRows db sc),
        hashOfGroup g2 = hashOfGroup g → g2 = g) →
      ∃ e, lookupEntry (process_all_data db sc now true true).time_entries
          (hashOfGroup g) = some e
        ∧ e.total_seconds
            = processedGroupSum
                (process_all_data db sc now true true).activity_log g := by
  intro db sc now g hnodup hclean hg hinj
  have hrows_ne : ¬ (selectRows db sc).isEmpty = true := by
    obtain ⟨r, hr, _⟩ := mem_groupKeys.mp hg
    cases hsel : selectRows db sc with
    | nil => rw [hsel] at hr; cases hr
    | cons a t => simp [hsel]
  have hkept_ne : ¬ (keptRows (selectRows db sc)).isEmpty = true := by
    obtain ⟨r, hr, hrk⟩ := mem_groupKeys.mp hg
    have hmem : r ∈ keptRows (selectRows db sc) :=
      List.mem_filter.mpr ⟨hr, by simp [hrk]⟩
    cases hk : keptRows (selectRows db sc) with
    | nil => rw [hk] at hmem; cases hmem
    | cons a t => simp [hk]
  have hrun : process_all_data db sc now true true
      = ⟨markProcessed db.activity_log (keptTriples (selectRows db sc)),
         applyUpserts db.time_entries now (entriesToUpsert (selectRows db sc))⟩ := by
    simp [process_all_data, hrows_ne, hkept_ne]
  rw [hrun]
  have hp_mem : entryRowFor (selectRows db sc) g
      ∈ entriesToUpsert (selectRows db sc) :=
    List.mem_map_of_mem (entryRowFor (selectRows db sc)) hg
  have huniq : ∀ q ∈ entriesToUpsert (selectRows db sc),
      q.source_hash = hashOfGroup g → q = entryRowFor (selectRows db sc) g := by
    intro q hq hqh
    obtain ⟨g2, hg2, rfl⟩ := List.mem_map.mp hq
    rw [hinj g2 hg2 hqh]
  obtain ⟨e, he, het⟩ := lookup_applyUpserts_unique now (hashOfGroup g)
    (entriesToUpsert (selectRows db sc)) (entryRowFor (selectRows db sc) g)
    hp_mem rfl huniq db.time_entries
  refine ⟨e, he, ?_⟩
  rw [het]
  show groupTotal (selectRows db sc) g = _
  rw [processedGroupSum_mark]
  have hfeq : (db.activity_log.filter fun r =>
        (r.processed || decide (tripleOf r ∈ keptTriples (selectRows db sc)))
          && decide (rowGroupKey r = some g))
      = (selectRows db sc).filter fun r => decide (rowGroupKey r = some g) := by
    unfold selectRows
    rw [List.filter_filter]
    apply List.filter_congr
    intro r hr
    by_cases hkey : rowGroupKey r = some g
    · by_cases hproc : r.processed
      · exact absurd hkey (hclean r hr hproc)
      · rw [Bool.not_eq_true] at hproc
        cases hsc : inScope sc r.log_date with
        | false =>
          have hnk : tripleOf r ∉ keptTriples (selectRows db sc) := by
            intro hmem
            have hsel := ((triple_mem_kept hnodup hr).mp hmem).1
            have := (mem_selectRows.mp hsel).2.2
            rw [hsc] at this
            cases this
          simp only [hkey, hproc, hsc]
          simp
          exact hnk
        | true =>
          have hsel : r ∈ selectRows db sc :=
            mem_selectRows.mpr ⟨hr, hproc, hsc⟩
          have hk : tripleOf r ∈ keptTriples (selectRows db sc) :=
            (triple_mem_kept hnodup hr).mpr ⟨hsel, by simp [hkey]⟩
          simp only [hkey, hproc, hsc]
          simp
          exact hk
    · simp [hkey]
  rw [hfeq]
  rfl

/-- Witness for C1: the amended theorem applied to a one-row store, the
hypotheses evaluated by decide; the written entry carries the processed
sum of its group. -/
theorem c1_conservation_amended_witness :
    ∃ e, lookupEntry
        (process_all_data
          ⟨[⟨"2025-01-01".data, "Chrome".data, "x.docx".data, 100, false⟩], []⟩
          fullScope 0 true true).time_entries
        (hashOfGroup ("2025-01-01".data, "Chrome".data, "x.docx".data)) = some e
      ∧ e.total_seconds
          = processedGroupSum
              (process_all_data
                ⟨[⟨"2025-01-01".data, "Chrome".data, "x.docx".data, 100, false⟩],
                  []⟩
                fullScope 0 true true).activity_log
              ("2025-01-01".data, "Chrome".data, "x.docx".data) :=
  c1_conservation_amended
    ⟨[⟨"2025-01-01".data, "Chrome".data, "x.docx".data, 100, false⟩], []⟩
    fullScope 0 ("2025-01-01".data, "Chrome".data, "x.docx".data)
    (by decide) (by decide) (by decide) (by decide)

end TimeEntries
